import Mathlib

/-!
# myfind: a shallow embedding of `main.cpp`

The program searches a directory for entries whose base name equals one of the
target names, optionally descending into sub-directories (one forked process per
sub-directory) and optionally ignoring case.

Modelling conventions

* `std::string` is a list of characters (`Str`); one C++ `char` is one `Char`.
* `size_t` is a natural number below `2 ^ 64`, `int` is an integer in the
  32-bit two's-complement range; narrowing and widening are explicit.
* A C++ exception is a value of `Exn`; a function that may throw returns its
  result together with the exception that left it (`Option` when there is a
  single kind of exception and no state).
* The file system is a finite tree of `Node`s.  A directory carries a flag that
  says whether `fs::directory_iterator` can list it.
* Processes are identified by natural numbers.  `fork` hands out the next unused
  identifier; because every parent waits for its child right after the fork,
  the processes run one after the other and the output is a single sequence.
-/

namespace MyFind

/-- A `std::string`. -/
abbrev Str := List Char

/-! ## String helpers of the standard library -/

/-- `string::npos`, the largest `size_t`. -/
def npos : Nat := 2 ^ 64 - 1

/-- Index of the last occurrence of `c` in `s`, if there is one. -/
def lastIndexOf (c : Char) : Str → Option Nat
  | [] => none
  | x :: xs =>
    match lastIndexOf c xs with
    | some i => some (i + 1)
    | none => if x = c then some 0 else none

/-- `s.find_last_of(c)`: position of the last `c`, or `npos`. -/
def find_last_of (s : Str) (c : Char) : Nat :=
  (lastIndexOf c s).getD npos

/-- `s.find(c) != string::npos`. -/
def containsChar (s : Str) (c : Char) : Bool :=
  s.contains c

/-- Conversion `size_t → int` (keeps the low 32 bits, two's complement). -/
def toInt (n : Nat) : Int :=
  if n % 2 ^ 32 < 2 ^ 31 then ((n % 2 ^ 32 : Nat) : Int) else ((n % 2 ^ 32 : Nat) : Int) - 2 ^ 32

/-- Addition on `int`, wrapping to 32 bits. -/
def addInt (a b : Int) : Int :=
  let r := (a + b) % 2 ^ 32
  if r < 2 ^ 31 then r else r - 2 ^ 32

/-- Conversion `int → size_t`. -/
def toSizeT (i : Int) : Nat :=
  (i % 2 ^ 64).toNat

/-- `s.substr(pos)`: the suffix from `pos`; throws `std::out_of_range` (here `none`)
when `pos > s.size()`. -/
def substr (s : Str) (pos : Nat) : Option Str :=
  if pos > s.length then none else some (s.drop pos)

/-- `std::toupper` in the default "C" locale, which the program never changes:
`a`–`z` are mapped to `A`–`Z`, every other character is left alone. -/
def toupper (c : Char) : Char :=
  if 97 ≤ c.toNat ∧ c.toNat ≤ 122 then Char.ofNat (c.toNat - 32) else c

/-- The three-iterator `std::equal(first1, last1, first2, pred)`: walks the first
range and compares with the elements of the second.  Running off the end of the
second range is undefined in C++; the only caller checks the sizes first. -/
def equal (pred : Char → Char → Bool) : Str → Str → Bool
  | [], _ => true
  | _ :: _, [] => false
  | a :: as, b :: bs => pred a b && equal pred as bs

/-! ## String functions of `main.cpp` -/

/-- `parseFileName` (main.cpp 154–158). -/
def parseFileName (path : Str) : Option Str :=
  let startOfFileName : Int := toInt (find_last_of path '/')
  substr path (toSizeT (addInt startOfFileName 1))

/-- `ignoreCaseCompare` (main.cpp 160–164). -/
def ignoreCaseCompare (str1 str2 : Str) : Bool :=
  (str1.length == str2.length) &&
    equal (fun c1 c2 => c1 == c2 || toupper c1 == toupper c2) str1 str2

/-- `compareStrings` (main.cpp 166–168). -/
def compareStrings (fileName name : Str) (ignoreCase : Bool) : Bool :=
  if ignoreCase then ignoreCaseCompare fileName name else decide (fileName = name)

/-- The comparison as the specification words it: in case-insensitive mode the
strings have equal length and agree position by position after uppercasing; in
case-sensitive mode they are identical. -/
def specMatch (fileName name : Str) (ignoreCase : Bool) : Prop :=
  if ignoreCase then
    fileName.length = name.length ∧
      ∀ i (h1 : i < fileName.length) (h2 : i < name.length),
        toupper (fileName.get ⟨i, h1⟩) = toupper (name.get ⟨i, h2⟩)
  else fileName = name


/-- The base name as the specification words it: what follows the last `/`, or
the whole string when there is none. -/
def specBaseName (path : Str) : Str :=
  (path.reverse.takeWhile (fun c => c != '/')).reverse

/-! ## The file system and the processes -/

/-- The operator `lhs / rhs` of `fs::path` on POSIX: an absolute right-hand side
replaces the left one; otherwise a separator is inserted when the left-hand side
has a file name, that is, is non-empty and does not end in a separator. -/
def pathAppend (lhs rhs : Str) : Str :=
  if rhs.head? = some '/' then rhs
  else if lhs ≠ [] ∧ lhs.getLast? ≠ some '/' then lhs ++ '/' :: rhs
  else lhs ++ rhs

/-- A directory entry as `fs::directory_iterator` delivers it.
* `file`: an entry for which `is_directory()` is `false`;
* `statError`: an entry whose status query throws `filesystem_error`;
* `dir`: an entry for which `is_directory()` is `true`; `readable` tells whether
  iterating the directory succeeds, `children` are its entries in listing order.

Trees are finite: cycles through symbolic links are outside the model. -/
inductive Node where
  | file (name : Str)
  | statError (name : Str)
  | dir (name : Str) (readable : Bool) (children : List Node)

/-- The name under which the entry is listed. -/
def Node.name : Node → Str
  | .file n => n
  | .statError n => n
  | .dir n _ _ => n

/-- `is_directory()` answers `true`. -/
def Node.isDir : Node → Bool
  | .dir _ _ _ => true
  | _ => false

/-- The entry is a directory whose listing succeeds. -/
def Node.isReadableDir : Node → Bool
  | .dir _ true _ => true
  | _ => false

/-- The exceptions that occur in the program. -/
inductive Exn where
  | filesystem_error
  | out_of_range
deriving DecidableEq, Repr

/-- One output line `<pid> : <fileName> : <path>`. -/
structure Record where
  pid : Nat
  fileName : Str
  path : Str
deriving DecidableEq, Repr

/-- The part of the machine that the processes share: the next unused process
identifier and the lines written to standard output so far. -/
structure World where
  nextPid : Nat
  out : List Record
deriving DecidableEq, Repr

/-- The inner loop of `search` (main.cpp 194–198) run by process `pid`: one line
per target name that matches `fileName`. -/
def report (pid : Nat) (fileName path : Str) (fileNames : List Str) (ignoreCase : Bool) :
    List Record :=
  (fileNames.filter (fun name => compareStrings fileName name ignoreCase)).map
    (fun _ => { pid := pid, fileName := fileName, path := path })

mutual
/-- `search` (main.cpp 170–200) called by process `pid` with the path
`searchPath`, at which the file system holds the entry `d`.  The result is the
world after the call and the exception that left it, if any.  The constructor
of `fs::directory_iterator` stands outside every `try` block of the call, so
its `filesystem_error` (unreadable directory, not a directory) leaves the
function. -/
def search (searchPath : Str) (fileNames : List Str) (isRecursive ignoreCase : Bool)
    (pid : Nat) (d : Node) (w : World) : World × Option Exn :=
  match d with
  | .dir _ true entries => searchLoop searchPath fileNames isRecursive ignoreCase pid entries w
  | _ => (w, some .filesystem_error)
termination_by structural d

/-- The `for` loop of `search` (main.cpp 171–199), run by process `pid` over the
entries that remain to be iterated.

For a directory in recursive mode the process forks (the fork is assumed to
succeed).  The child `w.nextPid` calls `search` on the directory inside the
`try` block: when that call throws `filesystem_error`, the handler of line 184
catches it *in the child*, which then goes on with line 191 and with the
remaining iterations of this very loop before it terminates; otherwise the
child terminates after the call (`exit(0)`, or an uncaught exception).  The
parent waits and continues with the next entry.  Each record is flushed when it
is written (`endl`), so a fork duplicates no pending output.  The entries that
remain are taken to be in the buffer of the directory stream already (a
directory is read in blocks), so after a fork the child sees the same remaining
entries as its parent.  In a directory larger than one block child and parent
share the position of the stream, and the parent misses what the child read
past the block: there the output of the program is a part of what this
definition gives. -/
def searchLoop (searchPath : Str) (fileNames : List Str) (isRecursive ignoreCase : Bool)
    (pid : Nat) (entries : List Node) (w : World) : World × Option Exn :=
  match entries with
  | [] => (w, none)
  | p :: rest =>
    let path := pathAppend searchPath p.name
    if isRecursive then
      match p with
      | .dir _ _ _ =>
        let child := w.nextPid
        let w1 : World := { w with nextPid := w.nextPid + 1 }
        let w2 : World :=
          match search path fileNames isRecursive ignoreCase child p w1 with
          | (wc, some .filesystem_error) =>
            match parseFileName path with
            | none => wc
            | some fileName =>
              (searchLoop searchPath fileNames isRecursive ignoreCase child rest
                { wc with out := wc.out ++ report child fileName path fileNames ignoreCase }).1
          | (wc, _) => wc
        searchLoop searchPath fileNames isRecursive ignoreCase pid rest w2
      | _ =>
        match parseFileName path with
        | none => (w, some .out_of_range)
        | some fileName =>
          searchLoop searchPath fileNames isRecursive ignoreCase pid rest
            { w with out := w.out ++ report pid fileName path fileNames ignoreCase }
    else
      match parseFileName path with
      | none => (w, some .out_of_range)
      | some fileName =>
        searchLoop searchPath fileNames isRecursive ignoreCase pid rest
          { w with out := w.out ++ report pid fileName path fileNames ignoreCase }
termination_by structural entries
end

/-- The lines a fresh process `pid` writes (together with the processes it
forks) when it calls `search`. -/
def output (searchPath : Str) (fileNames : List Str) (isRecursive ignoreCase : Bool)
    (pid : Nat) (d : Node) : List Record :=
  (search searchPath fileNames isRecursive ignoreCase pid d { nextPid := pid + 1, out := [] }).1.out

mutual
/-- Every entry located inside the entry `d` that sits at `path`, at any depth,
paired with its own path. -/
def inside (path : Str) (d : Node) : List (Str × Node) :=
  match d with
  | .dir _ _ children => walk path children
  | _ => []
termination_by structural d

/-- Every entry of the listing `entries` of the directory `dir` and everything
inside those entries, each paired with its path. -/
def walk (dir : Str) (entries : List Node) : List (Str × Node) :=
  match entries with
  | [] => []
  | p :: rest =>
    (pathAppend dir p.name, p) :: (inside (pathAppend dir p.name) p ++ walk dir rest)
termination_by structural entries
end

/-- What a file system allows as an entry name: non-empty and free of `/`. -/
def validName (n : Str) : Prop :=
  n ≠ [] ∧ '/' ∉ n

instance (n : Str) : Decidable (validName n) := by
  unfold validName; infer_instance

/-! ## The command line -/

/-- `getAllArguments` (main.cpp 143–152): `argv` without the program name. -/
def getAllArguments (argv : List Str) : List Str :=
  argv.drop 1

/-- The loop of `getSearchPath` (main.cpp 100–105): the last argument that
contains a `/`, or the empty string. -/
def pathArgument (arguments : List Str) : Str :=
  arguments.foldl (fun searchPath arg => if containsChar arg '/' then arg else searchPath) []

/-- `getSearchPath` (main.cpp 99–109).  `canonical` is `fs::canonical` in the
environment of the process (`none` when it throws `filesystem_error`). -/
def getSearchPath (canonical : Str → Option Str) (arguments : List Str) : Option Str :=
  let searchPath := pathArgument arguments
  let path := pathAppend ['.', '.'] searchPath
  canonical path

/-- `getFileNames` (main.cpp 130–141). -/
def getFileNames (arguments : List Str) : List Str :=
  arguments.foldl
    (fun fileNames arg =>
      if arg = ['-', 'R'] ∨ arg = ['-', 'i'] ∨ arg = ['-', 'R', 'i'] ∨ arg = ['-', 'i', 'R'] ∨
          containsChar arg '/' = true then fileNames
      else fileNames ++ [arg])
    []

/-- The option characters that successive calls of GNU `getopt` work through:
every argument of the form `-x…` contributes its characters after the dash,
other arguments are skipped, and `--` ends the scan. -/
def optionChars : List Str → List Char
  | [] => []
  | arg :: rest =>
    match arg with
    | ['-', '-'] => []
    | '-' :: c :: cs => (c :: cs) ++ optionChars rest
    | _ => optionChars rest

/-- `setOptions` (main.cpp 111–128) on the arguments after the program name.
`isIgnoreCase` and `isRecursive` are the values the two flags hold on entry
(`main` leaves them uninitialised); the result is the pair after the loop.
An option character other than `i` and `R` makes `getopt` answer `?`, which
only prints a message. -/
def setOptions (arguments : List Str) (isIgnoreCase isRecursive : Bool) : Bool × Bool :=
  (optionChars arguments).foldl
    (fun flags opt =>
      if opt = 'i' then (true, flags.2)
      else if opt = 'R' then (flags.1, true)
      else flags)
    (isIgnoreCase, isRecursive)

/-- An argument that the option scan of `setOptions` consumes as a cluster of
flags when it reaches it. -/
def isOptionArgument (arg : Str) : Bool :=
  match arg with
  | ['-', '-'] => false
  | '-' :: _ :: _ => true
  | _ => false

/-- How the process ends: `main` returns a status, or `std::terminate` is called
for an exception that nothing caught. -/
inductive Exit where
  | returned (status : Nat)
  | terminated (e : Exn)
deriving DecidableEq, Repr

/-- `main` (main.cpp 83–97), run by process `pid`.  `canonical` is
`fs::canonical` in the environment of the process, `lookup` gives the entry the
file system holds at a canonical path, and `flag₁`, `flag₂` are the
indeterminate initial values of the two option variables. -/
def main (canonical : Str → Option Str) (lookup : Str → Node) (flag₁ flag₂ : Bool)
    (argv : List Str) (pid : Nat) (w : World) : World × Exit :=
  let arguments := getAllArguments argv
  match getSearchPath canonical arguments with
  | none => (w, .terminated .filesystem_error)
  | some searchPath =>
    let fileNames := getFileNames arguments
    let flags := setOptions arguments flag₁ flag₂
    match search searchPath fileNames flags.2 flags.1 pid (lookup searchPath) w with
    | (w1, none) => (w1, .returned 0)
    | (w1, some e) => (w1, .terminated e)

/-! ## A lexical model of `fs::canonical` -/

/-- The components of a path: the pieces between the separators. -/
def splitSlash : Str → List Str
  | [] => [[]]
  | c :: cs =>
    if c = '/' then [] :: splitSlash cs
    else
      match splitSlash cs with
      | [] => [[c]]
      | x :: xs => (c :: x) :: xs

/-- Resolution of one component against the directories walked so far: empty
components and `.` stay, `..` goes up, a name goes down. -/
def resolveStep (stack : List Str) (comp : Str) : List Str :=
  if comp = [] ∨ comp = ['.'] then stack
  else if comp = ['.', '.'] then stack.dropLast
  else stack ++ [comp]

/-- The absolute path that names the directory reached by `stack`. -/
def render (stack : List Str) : Str :=
  if stack = [] then ['/'] else stack.foldr (fun comp acc => '/' :: comp ++ acc) []

/-- The directory stack reached from `stack` by walking the path `p`. -/
def resolveFrom (stack : List Str) (p : Str) : List Str :=
  (splitSlash p).foldl resolveStep stack

/-- A model of the library function `fs::canonical`: its result for
a process whose working directory is `cwd`, on a file system without symbolic
links in which every path that is asked for exists: a relative path is made
absolute against `cwd`, then `.`, `..` and empty components are resolved. -/
def lexCanonical (cwd p : Str) : Str :=
  render (resolveFrom [] (pathAppend cwd p))


/-! ## Notions used in the statements -/

/-- The listing of a directory entry (empty for other entries). -/
def Node.children : Node → List Node
  | .dir _ _ children => children
  | _ => []

/-- The directory path together with the separator that `pathAppend` puts in
front of a relative name. -/
def withSeparator (dir : Str) : Str :=
  if dir ≠ [] ∧ dir.getLast? ≠ some '/' then dir ++ ['/'] else dir

/-- The record `r` stems from an entry of the tree below `searchPath`: its path
is the path of that entry, its name is the base name of the path and matches a
target name; in recursive mode the entry is not a directory that could be
listed, in non-recursive mode it is one of `entries` itself. -/
def EmittedFor (searchPath : Str) (fileNames : List Str) (isRecursive ignoreCase : Bool)
    (entries : List Node) (r : Record) : Prop :=
  ∃ qx ∈ walk searchPath entries,
    r.path = qx.1 ∧ parseFileName qx.1 = some r.fileName ∧
    (∃ n ∈ fileNames, compareStrings r.fileName n ignoreCase = true) ∧
    (isRecursive = true → qx.2.isReadableDir = false) ∧
    (isRecursive = false → ∃ e ∈ entries, qx.1 = pathAppend searchPath e.name)

/-! ## Example trees -/

/-- The tree `root/{a.txt, sub/{a.txt, b.txt}}` of the specification. -/
def exampleTree : Node :=
  .dir "root".toList true
    [.file "a.txt".toList, .dir "sub".toList true [.file "a.txt".toList, .file "b.txt".toList]]

/-- The tree `root/{sub/{a.txt}}`. -/
def nestedTree : Node :=
  .dir "root".toList true [.dir "sub".toList true [.file "a.txt".toList]]

/-- The tree `root/{D/, b.txt}` in which `D` cannot be listed. -/
def lockedTree : Node :=
  .dir "root".toList true [.dir "D".toList false [], .file "b.txt".toList]

/-- The tree `root/{D/, b.txt}` in which `D` can be listed and is empty. -/
def unlockedTree : Node :=
  .dir "root".toList true [.dir "D".toList true [], .file "b.txt".toList]

/-- A root directory that cannot be listed. -/
def lockedRoot : Node :=
  .dir "root".toList false [.file "a.txt".toList]

/-! # Theorems -/

/-! ## Name comparison -/

theorem pred_iff (c1 c2 : Char) :
    (c1 == c2 || toupper c1 == toupper c2) = true ↔ toupper c1 = toupper c2 := by
  simp only [Bool.or_eq_true, beq_iff_eq]
  constructor
  · rintro (h | h)
    · rw [h]
    · exact h
  · intro h
    exact Or.inr h

theorem equal_iff (a b : Str) (h : a.length = b.length) :
    equal (fun c1 c2 => c1 == c2 || toupper c1 == toupper c2) a b = true ↔
      ∀ i (h1 : i < a.length) (h2 : i < b.length),
        toupper (a.get ⟨i, h1⟩) = toupper (b.get ⟨i, h2⟩) := by
  induction a generalizing b with
  | nil =>
    simp [equal]
  | cons x xs ih =>
    cases b with
    | nil => simp at h
    | cons y ys =>
      have hl : xs.length = ys.length := by simpa using h
      rw [equal, Bool.and_eq_true, pred_iff, ih ys hl]
      constructor
      · rintro ⟨h0, hrest⟩ i h1 h2
        cases i with
        | zero => simpa using h0
        | succ j =>
          have := hrest j (by simpa using h1) (by simpa using h2)
          simpa using this
      · intro hall
        refine ⟨?_, ?_⟩
        · simpa using hall 0 (by simp) (by simp)
        · intro i h1 h2
          have := hall (i + 1) (by simpa using h1) (by simpa using h2)
          simpa using this

theorem compareStrings_iff (fileName name : Str) (ignoreCase : Bool) :
    compareStrings fileName name ignoreCase = true ↔ specMatch fileName name ignoreCase := by
  cases ignoreCase with
  | false => simp [compareStrings, specMatch]
  | true =>
    simp only [compareStrings, specMatch, if_true, ignoreCaseCompare, Bool.and_eq_true,
      beq_iff_eq]
    constructor
    · rintro ⟨hl, he⟩
      exact ⟨hl, (equal_iff _ _ hl).1 he⟩
    · rintro ⟨hl, he⟩
      exact ⟨hl, (equal_iff _ _ hl).2 he⟩

theorem compareStrings_refl (s : Str) (ignoreCase : Bool) : compareStrings s s ignoreCase = true := by
  rw [compareStrings_iff]
  cases ignoreCase with
  | false => simp [specMatch]
  | true => simp [specMatch]

theorem compareStrings_length (fileName name : Str) (ignoreCase : Bool)
    (h : compareStrings fileName name ignoreCase = true) : fileName.length = name.length := by
  rw [compareStrings_iff] at h
  cases ignoreCase with
  | false =>
    simp only [specMatch] at h
    simp at h
    rw [h]
  | true =>
    simp only [specMatch, if_true] at h
    exact h.1

/-- C3: `compareStrings` agrees with the reference definition of the
specification for all strings and both modes; `FILE.TXT` matches `file.txt` and
`File.Txt` when case is ignored and does not match `file.txt` otherwise; strings
of different length match in neither mode. -/
theorem compareStrings_spec :
    (∀ (fileName name : Str) (ignoreCase : Bool),
      compareStrings fileName name ignoreCase = true ↔ specMatch fileName name ignoreCase) ∧
    compareStrings "FILE.TXT".toList "file.txt".toList true = true ∧
    compareStrings "FILE.TXT".toList "File.Txt".toList true = true ∧
    compareStrings "FILE.TXT".toList "file.txt".toList false = false ∧
    (∀ (fileName name : Str) (ignoreCase : Bool),
      fileName.length ≠ name.length → compareStrings fileName name ignoreCase = false) := by
  refine ⟨compareStrings_iff, by decide, by decide, by decide, ?_⟩
  intro fileName name ignoreCase hne
  cases h : compareStrings fileName name ignoreCase with
  | false => rfl
  | true => exact absurd (compareStrings_length _ _ _ h) hne

/-- C3, at concrete strings: the length part of `compareStrings_spec` applied to
`a.txt` and `a.tx`. -/
theorem compareStrings_spec_witness :
    compareStrings "a.txt".toList "a.tx".toList true = false :=
  compareStrings_spec.2.2.2.2 "a.txt".toList "a.tx".toList true (by decide)

/-! ## Base names -/

theorem lastIndexOf_none (c : Char) (s : Str) : lastIndexOf c s = none ↔ c ∉ s := by
  induction s with
  | nil => simp [lastIndexOf]
  | cons x xs ih =>
    rw [lastIndexOf]
    cases h : lastIndexOf c xs with
    | none =>
      have hc : c ∉ xs := ih.1 h
      by_cases hx : x = c
      · simp [hx]
      · have hx2 : ¬ c = x := fun e => hx e.symm
        simp [hx, hx2, hc]
    | some i =>
      have hc : ¬ c ∉ xs := fun hn => by
        have := ih.2 hn
        rw [h] at this
        cases this
      have hc2 : c ∈ xs := by
        by_contra hn
        exact hc hn
      simp [hc2]

theorem lastIndexOf_some (c : Char) (s : Str) (i : Nat) (h : lastIndexOf c s = some i) :
    ∃ pre suf, s = pre ++ c :: suf ∧ pre.length = i ∧ c ∉ suf := by
  induction s generalizing i with
  | nil => simp [lastIndexOf] at h
  | cons x xs ih =>
    rw [lastIndexOf] at h
    cases hx : lastIndexOf c xs with
    | none =>
      rw [hx] at h
      by_cases hxc : x = c
      · simp only [hxc, if_true, Option.some.injEq] at h
        refine ⟨[], xs, ?_, ?_, (lastIndexOf_none c xs).1 hx⟩
        · simp [hxc]
        · simpa using h
      · simp [hxc] at h
    | some j =>
      rw [hx] at h
      simp only [Option.some.injEq] at h
      obtain ⟨pre, suf, hs, hl, hn⟩ := ih j hx
      refine ⟨x :: pre, suf, ?_, ?_, hn⟩
      · simp [hs]
      · simp [hl, h]

theorem toInt_small (n : Nat) (h : n < 2 ^ 31) : toInt n = (n : Int) := by
  have h1 : n % 2 ^ 32 = n := Nat.mod_eq_of_lt (by omega)
  simp only [toInt, h1]
  rw [if_pos h]

theorem toInt_npos : toInt npos = -1 := by decide

theorem addInt_small (n : Nat) (h : n + 1 < 2 ^ 31) : addInt (n : Int) 1 = ((n + 1 : Nat) : Int) := by
  simp only [addInt]
  have h0 : ((n : Int) + 1) % 2 ^ 32 = (n : Int) + 1 := by
    apply Int.emod_eq_of_lt
    · omega
    · norm_num
      omega
  rw [h0]
  have h1 : ((n : Int) + 1) < 2 ^ 31 := by
    norm_num
    omega
  rw [if_pos h1]
  push_cast
  rfl

theorem toSizeT_small (n : Nat) (h : n < 2 ^ 31) : toSizeT ((n : Nat) : Int) = n := by
  simp only [toSizeT]
  have h0 : ((n : Int)) % 2 ^ 64 = (n : Int) := by
    apply Int.emod_eq_of_lt
    · omega
    · norm_num
      omega
  rw [h0]
  simp

theorem takeWhile_append_stop {α : Type} (p : α → Bool) (l r : List α) (x : α)
    (hl : ∀ a ∈ l, p a = true) (hx : p x = false) : (l ++ x :: r).takeWhile p = l := by
  induction l with
  | nil => simp [List.takeWhile, hx]
  | cons a as ih =>
    have ha : p a = true := hl a (by simp)
    simp only [List.cons_append, List.takeWhile_cons, ha, if_true]
    rw [ih (fun b hb => hl b (by simp [hb]))]

theorem takeWhile_all {α : Type} (p : α → Bool) (l : List α)
    (hl : ∀ a ∈ l, p a = true) : l.takeWhile p = l := by
  induction l with
  | nil => rfl
  | cons a as ih =>
    have ha : p a = true := hl a (by simp)
    simp only [List.takeWhile_cons, ha, if_true]
    rw [ih (fun b hb => hl b (by simp [hb]))]

theorem specBaseName_split (pre suf : Str) (h : '/' ∉ suf) :
    specBaseName (pre ++ '/' :: suf) = suf := by
  unfold specBaseName
  have hr : (pre ++ '/' :: suf).reverse = suf.reverse ++ '/' :: pre.reverse := by simp
  rw [hr, takeWhile_append_stop]
  · simp
  · intro a ha
    have : a ∈ suf := by simpa using ha
    simp only [bne_iff_ne, ne_eq]
    intro e
    exact h (e ▸ this)
  · simp

theorem specBaseName_noSlash (s : Str) (h : '/' ∉ s) : specBaseName s = s := by
  unfold specBaseName
  rw [takeWhile_all]
  · simp
  · intro a ha
    have : a ∈ s := by simpa using ha
    simp only [bne_iff_ne, ne_eq]
    intro e
    exact h (e ▸ this)

/-- The value of `parseFileName` on a path without separator. -/
theorem parseFileName_noSlash (s : Str) (h : '/' ∉ s) : parseFileName s = some s := by
  have hn : lastIndexOf '/' s = none := (lastIndexOf_none '/' s).2 h
  have h0 : toSizeT (addInt (-1) 1) = 0 := by decide
  simp only [parseFileName, find_last_of, hn, Option.getD_none, toInt_npos, h0, substr]
  simp

/-- The value of `parseFileName` on a path whose last separator is known. -/
theorem parseFileName_split (pre suf : Str) (h : '/' ∉ suf)
    (hlen : (pre ++ '/' :: suf).length < 2 ^ 31) :
    parseFileName (pre ++ '/' :: suf) = some suf := by
  cases hi : lastIndexOf '/' (pre ++ '/' :: suf) with
  | none =>
    have := (lastIndexOf_none '/' _).1 hi
    simp at this
  | some i =>
    obtain ⟨pre2, suf2, hs, hl, hn⟩ := lastIndexOf_some _ _ _ hi
    have hlen2 : (pre2 ++ '/' :: suf2).length < 2 ^ 31 := by rw [← hs]; exact hlen
    have hi1 : i + 1 ≤ (pre2 ++ '/' :: suf2).length := by
      simp only [List.length_append, List.length_cons]
      omega
    have hsuf : suf2 = suf := by
      have e1 := specBaseName_split pre suf h
      have e2 := specBaseName_split pre2 suf2 hn
      rw [hs] at e1
      rw [e1] at e2
      exact e2.symm
    have hdrop : (pre2 ++ '/' :: suf2).drop (i + 1) = suf2 := by
      rw [← hl]
      have : pre2 ++ '/' :: suf2 = (pre2 ++ ['/']) ++ suf2 := by simp
      rw [this]
      have hl2 : pre2.length + 1 = (pre2 ++ ['/']).length := by simp
      rw [hl2, List.drop_left]
    simp only [parseFileName, find_last_of, hi, Option.getD_some]
    rw [toInt_small i (by omega), addInt_small i (by omega), toSizeT_small (i + 1) (by omega)]
    rw [hs]
    simp only [substr]
    rw [if_neg (by omega), hdrop, hsuf]

/-- Below `2 ^ 31` characters `parseFileName` succeeds with the base name. -/
theorem parseFileName_eq (path : Str) (hlen : path.length < 2 ^ 31) :
    parseFileName path = some (specBaseName path) := by
  cases hi : lastIndexOf '/' path with
  | none =>
    have hno := (lastIndexOf_none '/' path).1 hi
    rw [specBaseName_noSlash path hno]
    exact parseFileName_noSlash path hno
  | some i =>
    obtain ⟨pre, suf, hs, _, hn⟩ := lastIndexOf_some _ _ _ hi
    subst hs
    rw [specBaseName_split pre suf hn]
    exact parseFileName_split pre suf hn hlen

/-- C10: for every path shorter than `2 ^ 31` characters `parseFileName` returns
the base name (what follows the last `/`; the whole path when there is none,
because `npos` narrowed to `int` and incremented is the start index 0); the
result contains no `/`, and the path is a prefix followed by the result, where
the prefix is empty or ends in `/`. -/
theorem parseFileName_baseName (path : Str) (hlen : path.length < 2 ^ 31) :
    parseFileName path = some (specBaseName path) ∧
    '/' ∉ specBaseName path ∧
    ('/' ∉ path → find_last_of path '/' = npos ∧ specBaseName path = path) ∧
    toSizeT (addInt (toInt npos) 1) = 0 ∧
    ∃ pre, path = pre ++ specBaseName path ∧ (pre = [] ∨ pre.getLast? = some '/') := by
  refine ⟨parseFileName_eq path hlen, ?_, ?_, by decide, ?_⟩
  · cases hi : lastIndexOf '/' path with
    | none =>
      have hno := (lastIndexOf_none '/' path).1 hi
      rw [specBaseName_noSlash path hno]
      exact hno
    | some i =>
      obtain ⟨pre, suf, hs, _, hn⟩ := lastIndexOf_some _ _ _ hi
      rw [hs, specBaseName_split pre suf hn]
      exact hn
  · intro hno
    have hi := (lastIndexOf_none '/' path).2 hno
    exact ⟨by simp [find_last_of, hi], specBaseName_noSlash path hno⟩
  · cases hi : lastIndexOf '/' path with
    | none =>
      have hno := (lastIndexOf_none '/' path).1 hi
      rw [specBaseName_noSlash path hno]
      exact ⟨[], by simp, Or.inl rfl⟩
    | some i =>
      obtain ⟨pre, suf, hs, _, hn⟩ := lastIndexOf_some _ _ _ hi
      rw [hs, specBaseName_split pre suf hn]
      exact ⟨pre ++ ['/'], by simp, Or.inr (by simp)⟩

/-- C10 at the path `root/sub/a.txt`, whose base name is `a.txt`. -/
theorem parseFileName_baseName_witness :
    parseFileName "root/sub/a.txt".toList = some "a.txt".toList := by
  have h := (parseFileName_baseName "root/sub/a.txt".toList (by decide)).1
  have e : specBaseName "root/sub/a.txt".toList = "a.txt".toList := by decide
  rw [e] at h
  exact h

/-! ## Unfolding the traversal -/

theorem search_readable (sp : Str) (fn : List Str) (r ic : Bool) (pid : Nat) (n : Str)
    (es : List Node) (w : World) :
    search sp fn r ic pid (.dir n true es) w = searchLoop sp fn r ic pid es w := rfl

theorem search_unreadable (sp : Str) (fn : List Str) (r ic : Bool) (pid : Nat) (n : Str)
    (es : List Node) (w : World) :
    search sp fn r ic pid (.dir n false es) w = (w, some .filesystem_error) := rfl

theorem searchLoop_nil (sp : Str) (fn : List Str) (r ic : Bool) (pid : Nat) (w : World) :
    searchLoop sp fn r ic pid [] w = (w, none) := rfl

theorem searchLoop_cons_flat (sp : Str) (fn : List Str) (ic : Bool) (pid : Nat) (p : Node)
    (rest : List Node) (w : World) :
    searchLoop sp fn false ic pid (p :: rest) w =
      match parseFileName (pathAppend sp p.name) with
      | none => (w, some .out_of_range)
      | some fileName =>
        searchLoop sp fn false ic pid rest
          { w with out := w.out ++ report pid fileName (pathAppend sp p.name) fn ic } := rfl

theorem searchLoop_cons_file (sp : Str) (fn : List Str) (ic : Bool) (pid : Nat) (n : Str)
    (rest : List Node) (w : World) :
    searchLoop sp fn true ic pid (.file n :: rest) w =
      match parseFileName (pathAppend sp n) with
      | none => (w, some .out_of_range)
      | some fileName =>
        searchLoop sp fn true ic pid rest
          { w with out := w.out ++ report pid fileName (pathAppend sp n) fn ic } := rfl

theorem searchLoop_cons_statError (sp : Str) (fn : List Str) (ic : Bool) (pid : Nat) (n : Str)
    (rest : List Node) (w : World) :
    searchLoop sp fn true ic pid (.statError n :: rest) w =
      match parseFileName (pathAppend sp n) with
      | none => (w, some .out_of_range)
      | some fileName =>
        searchLoop sp fn true ic pid rest
          { w with out := w.out ++ report pid fileName (pathAppend sp n) fn ic } := rfl

theorem searchLoop_cons_dir (sp : Str) (fn : List Str) (ic : Bool) (pid : Nat) (n : Str)
    (c rest : List Node) (w : World) :
    searchLoop sp fn true ic pid (.dir n true c :: rest) w =
      searchLoop sp fn true ic pid rest
        (match searchLoop (pathAppend sp n) fn true ic w.nextPid c
            { w with nextPid := w.nextPid + 1 } with
          | (wc, some .filesystem_error) =>
            match parseFileName (pathAppend sp n) with
            | none => wc
            | some fileName =>
              (searchLoop sp fn true ic w.nextPid rest
                { wc with out := wc.out ++ report w.nextPid fileName (pathAppend sp n) fn ic }).1
          | (wc, _) => wc) := rfl

theorem searchLoop_cons_locked (sp : Str) (fn : List Str) (ic : Bool) (pid : Nat) (n : Str)
    (c rest : List Node) (w : World) :
    searchLoop sp fn true ic pid (.dir n false c :: rest) w =
      searchLoop sp fn true ic pid rest
        (match parseFileName (pathAppend sp n) with
          | none => { w with nextPid := w.nextPid + 1 }
          | some fileName =>
            (searchLoop sp fn true ic w.nextPid rest
              { nextPid := w.nextPid + 1,
                out := w.out ++ report w.nextPid fileName (pathAppend sp n) fn ic }).1) := rfl

theorem walk_cons (dir : Str) (p : Node) (rest : List Node) :
    walk dir (p :: rest) =
      (pathAppend dir p.name, p) :: (inside (pathAppend dir p.name) p ++ walk dir rest) := rfl

theorem inside_dir (path n : Str) (b : Bool) (c : List Node) :
    inside path (.dir n b c) = walk path c := rfl

theorem inside_children (path : Str) (d : Node) : inside path d = walk path d.children := by
  cases d <;> rfl

theorem walk_mem_rest (dir : Str) (p : Node) (rest : List Node) (qx : Str × Node)
    (h : qx ∈ walk dir rest) : qx ∈ walk dir (p :: rest) := by
  rw [walk_cons]
  simp [h]

theorem walk_mem_child (dir n : Str) (b : Bool) (c rest : List Node) (qx : Str × Node)
    (h : qx ∈ walk (pathAppend dir n) c) : qx ∈ walk dir (.dir n b c :: rest) := by
  rw [walk_cons]
  simp only [Node.name, inside_dir]
  simp [h]

theorem walk_mem_head (dir : Str) (p : Node) (rest : List Node) :
    (pathAppend dir p.name, p) ∈ walk dir (p :: rest) := by
  rw [walk_cons]
  simp

theorem walk_mem_iff (dir : Str) (es : List Node) (qx : Str × Node) :
    qx ∈ walk dir es ↔
      ∃ e ∈ es, qx = (pathAppend dir e.name, e) ∨ qx ∈ inside (pathAppend dir e.name) e := by
  induction es with
  | nil => simp [walk]
  | cons p rest ih =>
    rw [walk_cons]
    simp only [List.mem_cons, List.mem_append, ih]
    constructor
    · rintro (h | h | ⟨e, he, h⟩)
      · exact ⟨p, Or.inl rfl, Or.inl h⟩
      · exact ⟨p, Or.inl rfl, Or.inr h⟩
      · exact ⟨e, Or.inr he, h⟩
    · rintro ⟨e, he | he, h | h⟩
      · subst he
        exact Or.inl h
      · subst he
        exact Or.inr (Or.inl h)
      · exact Or.inr (Or.inr ⟨e, he, Or.inl h⟩)
      · exact Or.inr (Or.inr ⟨e, he, Or.inr h⟩)

/-! ## What the traversal writes -/

/-- The loop itself never throws `filesystem_error`: only the opening of a
directory does. -/
theorem searchLoop_status (sp : Str) (fn : List Str) (r ic : Bool) (pid : Nat)
    (es : List Node) (w : World) :
    (searchLoop sp fn r ic pid es w).2 ≠ some .filesystem_error := by
  induction es generalizing w with
  | nil => simp [searchLoop_nil]
  | cons p rest ih =>
    cases r with
    | false =>
      rw [searchLoop_cons_flat]
      cases parseFileName (pathAppend sp p.name) with
      | none => simp
      | some f => exact ih _
    | true =>
      cases p with
      | file n =>
        rw [searchLoop_cons_file]
        cases parseFileName (pathAppend sp n) with
        | none => simp
        | some f => exact ih _
      | statError n =>
        rw [searchLoop_cons_statError]
        cases parseFileName (pathAppend sp n) with
        | none => simp
        | some f => exact ih _
      | dir n b c =>
        cases b with
        | true =>
          rw [searchLoop_cons_dir]
          exact ih _
        | false =>
          rw [searchLoop_cons_locked]
          exact ih _

/-- What the child of a listable directory leaves behind is the world after its
own traversal: the handler of line 184 is not entered. -/
theorem searchLoop_cons_dir_eq (sp : Str) (fn : List Str) (ic : Bool) (pid : Nat) (n : Str)
    (c rest : List Node) (w : World) :
    searchLoop sp fn true ic pid (.dir n true c :: rest) w =
      searchLoop sp fn true ic pid rest
        (searchLoop (pathAppend sp n) fn true ic w.nextPid c
            { w with nextPid := w.nextPid + 1 }).1 := by
  rw [searchLoop_cons_dir]
  have hs := searchLoop_status (pathAppend sp n) fn true ic w.nextPid c
    { w with nextPid := w.nextPid + 1 }
  generalize searchLoop (pathAppend sp n) fn true ic w.nextPid c
    { w with nextPid := w.nextPid + 1 } = res at hs
  obtain ⟨wc, st⟩ := res
  cases st with
  | none => rfl
  | some e =>
    cases e with
    | filesystem_error => exact absurd rfl hs
    | out_of_range => rfl

theorem EmittedFor.rest {sp : Str} {fn : List Str} {r ic : Bool} {p : Node} {rest : List Node}
    {x : Record} (h : EmittedFor sp fn r ic rest x) : EmittedFor sp fn r ic (p :: rest) x := by
  obtain ⟨qx, hmem, h1, h2, h3, h4, h5⟩ := h
  refine ⟨qx, walk_mem_rest _ _ _ _ hmem, h1, h2, h3, h4, ?_⟩
  intro hr
  obtain ⟨e, he, hq⟩ := h5 hr
  exact ⟨e, List.mem_cons_of_mem _ he, hq⟩

theorem EmittedFor.child {sp : Str} {fn : List Str} {ic : Bool} {n : Str} {b : Bool}
    {c rest : List Node} {x : Record} (h : EmittedFor (pathAppend sp n) fn true ic c x) :
    EmittedFor sp fn true ic (.dir n b c :: rest) x := by
  obtain ⟨qx, hmem, h1, h2, h3, h4, _⟩ := h
  refine ⟨qx, walk_mem_child _ _ _ _ _ _ hmem, h1, h2, h3, h4, ?_⟩
  intro hr
  cases hr

theorem mem_report {pid : Nat} {f path : Str} {fn : List Str} {ic : Bool} {x : Record}
    (h : x ∈ report pid f path fn ic) :
    x = { pid := pid, fileName := f, path := path } ∧
      ∃ n ∈ fn, compareStrings f n ic = true := by
  simp only [report, List.mem_map, List.mem_filter] at h
  obtain ⟨n, ⟨hn, hc⟩, hx⟩ := h
  exact ⟨hx.symm, n, hn, hc⟩

/-- A record written for the head entry of the loop. -/
theorem EmittedFor.head {sp : Str} {fn : List Str} {r ic : Bool} {p : Node} {rest : List Node}
    {pid : Nat} {f : Str} {x : Record}
    (hp : parseFileName (pathAppend sp p.name) = some f)
    (hd : r = true → p.isReadableDir = false)
    (h : x ∈ report pid f (pathAppend sp p.name) fn ic) :
    EmittedFor sp fn r ic (p :: rest) x := by
  obtain ⟨hx, hn⟩ := mem_report h
  subst hx
  exact ⟨(pathAppend sp p.name, p), walk_mem_head _ _ _, rfl, hp, hn, hd,
    fun _ => ⟨p, List.mem_cons_self _ _, rfl⟩⟩

/-- Soundness of the traversal: the loop only appends to the output, and every
record it appends stems from an entry of the tree. -/
theorem searchLoop_sound (sp : Str) (fn : List Str) (r ic : Bool) (pid : Nat)
    (es : List Node) (w : World) :
    ∃ l, (searchLoop sp fn r ic pid es w).1.out = w.out ++ l ∧
      ∀ x ∈ l, EmittedFor sp fn r ic es x := by
  match es with
  | [] => exact ⟨[], by simp [searchLoop_nil], by simp⟩
  | p :: rest =>
    cases r with
    | false =>
      rw [searchLoop_cons_flat]
      cases hp : parseFileName (pathAppend sp p.name) with
      | none => exact ⟨[], by simp, by simp⟩
      | some f =>
        obtain ⟨l, hl, hall⟩ := searchLoop_sound sp fn false ic pid rest
          { w with out := w.out ++ report pid f (pathAppend sp p.name) fn ic }
        refine ⟨report pid f (pathAppend sp p.name) fn ic ++ l, ?_, ?_⟩
        · simp only [hl, List.append_assoc]
        · intro x hx
          rcases List.mem_append.1 hx with h | h
          · exact EmittedFor.head hp (fun e => by cases e) h
          · exact (hall x h).rest
    | true =>
      match p with
      | .file n =>
        rw [searchLoop_cons_file]
        cases hp : parseFileName (pathAppend sp n) with
        | none => exact ⟨[], by simp, by simp⟩
        | some f =>
          obtain ⟨l, hl, hall⟩ := searchLoop_sound sp fn true ic pid rest
            { w with out := w.out ++ report pid f (pathAppend sp n) fn ic }
          refine ⟨report pid f (pathAppend sp n) fn ic ++ l, ?_, ?_⟩
          · simp only [hl, List.append_assoc]
          · intro x hx
            rcases List.mem_append.1 hx with h | h
            · exact EmittedFor.head (p := .file n) hp (fun _ => rfl) h
            · exact (hall x h).rest
      | .statError n =>
        rw [searchLoop_cons_statError]
        cases hp : parseFileName (pathAppend sp n) with
        | none => exact ⟨[], by simp, by simp⟩
        | some f =>
          obtain ⟨l, hl, hall⟩ := searchLoop_sound sp fn true ic pid rest
            { w with out := w.out ++ report pid f (pathAppend sp n) fn ic }
          refine ⟨report pid f (pathAppend sp n) fn ic ++ l, ?_, ?_⟩
          · simp only [hl, List.append_assoc]
          · intro x hx
            rcases List.mem_append.1 hx with h | h
            · exact EmittedFor.head (p := .statError n) hp (fun _ => rfl) h
            · exact (hall x h).rest
      | .dir n true c =>
        rw [searchLoop_cons_dir_eq]
        obtain ⟨l1, hl1, hall1⟩ := searchLoop_sound (pathAppend sp n) fn true ic w.nextPid c
          { w with nextPid := w.nextPid + 1 }
        obtain ⟨l2, hl2, hall2⟩ := searchLoop_sound sp fn true ic pid rest
          (searchLoop (pathAppend sp n) fn true ic w.nextPid c
            { w with nextPid := w.nextPid + 1 }).1
        refine ⟨l1 ++ l2, ?_, ?_⟩
        · rw [hl2, hl1]
          simp only [List.append_assoc]
        · intro x hx
          rcases List.mem_append.1 hx with h | h
          · exact (hall1 x h).child
          · exact (hall2 x h).rest
      | .dir n false c =>
        rw [searchLoop_cons_locked]
        cases hp : parseFileName (pathAppend sp n) with
        | none =>
          obtain ⟨l, hl, hall⟩ := searchLoop_sound sp fn true ic pid rest
            { w with nextPid := w.nextPid + 1 }
          exact ⟨l, by simpa using hl, fun x hx => (hall x hx).rest⟩
        | some f =>
          obtain ⟨l1, hl1, hall1⟩ := searchLoop_sound sp fn true ic w.nextPid rest
            { nextPid := w.nextPid + 1,
              out := w.out ++ report w.nextPid f (pathAppend sp n) fn ic }
          obtain ⟨l2, hl2, hall2⟩ := searchLoop_sound sp fn true ic pid rest
            (searchLoop sp fn true ic w.nextPid rest
              { nextPid := w.nextPid + 1,
                out := w.out ++ report w.nextPid f (pathAppend sp n) fn ic }).1
          refine ⟨report w.nextPid f (pathAppend sp n) fn ic ++ l1 ++ l2, ?_, ?_⟩
          · simp only [hl2, hl1, List.append_assoc]
          · intro x hx
            rcases List.mem_append.1 hx with h | h
            · rcases List.mem_append.1 h with h | h
              · exact EmittedFor.head (p := .dir n false c) hp (fun _ => rfl) h
              · exact (hall1 x h).rest
            · exact (hall2 x h).rest

theorem searchLoop_out_mono (sp : Str) (fn : List Str) (r ic : Bool) (pid : Nat)
    (es : List Node) (w : World) (x : Record) (h : x ∈ w.out) :
    x ∈ (searchLoop sp fn r ic pid es w).1.out := by
  obtain ⟨l, hl, _⟩ := searchLoop_sound sp fn r ic pid es w
  rw [hl]
  exact List.mem_append_left _ h

/-- Soundness for a whole call of `search`. -/
theorem search_sound (sp : Str) (fn : List Str) (r ic : Bool) (pid : Nat) (d : Node)
    (w : World) :
    ∃ l, (search sp fn r ic pid d w).1.out = w.out ++ l ∧
      ∀ x ∈ l, EmittedFor sp fn r ic d.children x := by
  cases d with
  | file n => exact ⟨[], by simp [search], by simp⟩
  | statError n => exact ⟨[], by simp [search], by simp⟩
  | dir n b c =>
    cases b with
    | false => exact ⟨[], by simp [search_unreadable], by simp⟩
    | true =>
      rw [search_readable]
      exact searchLoop_sound sp fn r ic pid c w

theorem output_sound (sp : Str) (fn : List Str) (r ic : Bool) (pid : Nat) (d : Node)
    (x : Record) (h : x ∈ output sp fn r ic pid d) : EmittedFor sp fn r ic d.children x := by
  obtain ⟨l, hl, hall⟩ := search_sound sp fn r ic pid d { nextPid := pid + 1, out := [] }
  unfold output at h
  rw [hl] at h
  exact hall x (by simpa using h)

/-! ## Shapes of paths -/

theorem validName_head {n : Str} (h : validName n) : n.head? ≠ some '/' := by
  obtain ⟨hne, hs⟩ := h
  cases n with
  | nil => exact absurd rfl hne
  | cons a as =>
    simp only [List.head?_cons, ne_eq, Option.some.injEq]
    intro e
    exact hs (by simp [e])

theorem validName_last {n : Str} (h : validName n) : n.getLast? ≠ some '/' := by
  intro e
  exact h.2 (List.mem_of_getLast?_eq_some e)

theorem pathAppend_valid (dir : Str) {n : Str} (h : validName n) :
    pathAppend dir n = withSeparator dir ++ n := by
  unfold pathAppend withSeparator
  rw [if_neg (validName_head h)]
  split
  · simp
  · rfl

theorem withSeparator_pathAppend (dir : Str) {n : Str} (h : validName n) :
    withSeparator (pathAppend dir n) = pathAppend dir n ++ ['/'] := by
  rw [pathAppend_valid dir h]
  unfold withSeparator
  have hne : withSeparator dir ++ n ≠ [] := by
    intro e
    exact h.1 (List.append_eq_nil.1 e).2
  have hl : (withSeparator dir ++ n).getLast? ≠ some '/' := by
    rw [List.getLast?_append_of_ne_nil _ h.1]
    exact validName_last h
  rw [if_pos ⟨hne, hl⟩]

/-- Under valid names every path below a directory starts with the directory
and its separator. -/
theorem walk_starts (dir : Str) (es : List Node)
    (hv : ∀ qx ∈ walk dir es, validName qx.2.name) (qx : Str × Node) (h : qx ∈ walk dir es) :
    ∃ s, qx.1 = withSeparator dir ++ s := by
  match es with
  | [] => simp [walk] at h
  | .file n :: rest =>
    have hp : validName n := hv _ (walk_mem_head dir (.file n) rest)
    rw [walk_cons] at h
    rcases List.mem_cons.1 h with h | h
    · exact ⟨n, by rw [h]; exact pathAppend_valid dir hp⟩
    · rcases List.mem_append.1 h with h | h
      · simp [inside] at h
      · exact walk_starts dir rest (fun qx hq => hv qx (walk_mem_rest dir _ rest qx hq)) qx h
  | .statError n :: rest =>
    have hp : validName n := hv _ (walk_mem_head dir (.statError n) rest)
    rw [walk_cons] at h
    rcases List.mem_cons.1 h with h | h
    · exact ⟨n, by rw [h]; exact pathAppend_valid dir hp⟩
    · rcases List.mem_append.1 h with h | h
      · simp [inside] at h
      · exact walk_starts dir rest (fun qx hq => hv qx (walk_mem_rest dir _ rest qx hq)) qx h
  | .dir n b c :: rest =>
    have hp : validName n := hv _ (walk_mem_head dir (.dir n b c) rest)
    rw [walk_cons] at h
    rcases List.mem_cons.1 h with h | h
    · exact ⟨n, by rw [h]; exact pathAppend_valid dir hp⟩
    · rcases List.mem_append.1 h with h | h
      · rw [inside_dir] at h
        have hvc : ∀ qx ∈ walk (pathAppend dir n) c, validName qx.2.name :=
          fun qx hq => hv qx (walk_mem_child dir n b c rest qx hq)
        obtain ⟨s, hs⟩ := walk_starts (pathAppend dir n) c hvc qx h
        rw [withSeparator_pathAppend dir hp, pathAppend_valid dir hp] at hs
        exact ⟨n ++ '/' :: s, by rw [hs]; simp⟩
      · exact walk_starts dir rest (fun qx hq => hv qx (walk_mem_rest dir _ rest qx hq)) qx h

/-- Under valid names a path inside an entry continues the path of the entry
with a separator. -/
theorem inside_slash (dir : Str) (e : Node) (hn : validName e.name)
    (hv : ∀ qx ∈ inside (pathAppend dir e.name) e, validName qx.2.name)
    (qx : Str × Node) (h : qx ∈ inside (pathAppend dir e.name) e) :
    ∃ s, qx.1 = withSeparator dir ++ (e.name ++ '/' :: s) := by
  rw [inside_children] at h hv
  obtain ⟨s, hs⟩ := walk_starts _ _ hv qx h
  rw [withSeparator_pathAppend dir hn, pathAppend_valid dir hn] at hs
  exact ⟨s, by rw [hs]; simp⟩

/-- The path of an entry of a directory is not the path of anything inside an
entry of that directory. -/
theorem direct_ne_inside (dir : Str) (e1 e : Node) (h1 : validName e1.name)
    (hn : validName e.name)
    (hv : ∀ qx ∈ inside (pathAppend dir e.name) e, validName qx.2.name)
    (qx : Str × Node) (h : qx ∈ inside (pathAppend dir e.name) e) :
    pathAppend dir e1.name ≠ qx.1 := by
  obtain ⟨s, hs⟩ := inside_slash dir e hn hv qx h
  rw [hs, pathAppend_valid dir h1]
  intro heq
  have := List.append_cancel_left heq
  exact h1.2 (by rw [this]; simp)

theorem parseFileName_pathAppend (dir : Str) {n : Str} (h : validName n)
    (hlen : (pathAppend dir n).length < 2 ^ 31) : parseFileName (pathAppend dir n) = some n := by
  have hsplit : pathAppend dir n = n ∨ ∃ pre, pathAppend dir n = pre ++ '/' :: n := by
    unfold pathAppend
    rw [if_neg (validName_head h)]
    by_cases hd : dir = []
    · left
      simp [hd]
    · right
      by_cases hl : dir.getLast? = some '/'
      · refine ⟨dir.dropLast, ?_⟩
        have hne : ¬ (dir ≠ [] ∧ dir.getLast? ≠ some '/') := fun hc => hc.2 hl
        rw [if_neg hne]
        have hd2 : dir = dir.dropLast ++ ['/'] := by
          have := List.dropLast_append_getLast? '/' (by simpa using hl)
          exact this.symm
        conv_lhs => rw [hd2]
        simp
      · exact ⟨dir, by rw [if_pos ⟨hd, hl⟩]⟩
  rcases hsplit with e | ⟨pre, e⟩
  · rw [e]
    exact parseFileName_noSlash n h.2
  · rw [e] at hlen ⊢
    exact parseFileName_split pre n h.2 hlen

/-! ## The claims about the traversal -/

/-- C6: with an empty list of target names `search` emits no record, for every
tree, every path and both values of each flag. -/
theorem search_no_targets (searchPath : Str) (isRecursive ignoreCase : Bool) (pid : Nat)
    (d : Node) (w : World) :
    (search searchPath [] isRecursive ignoreCase pid d w).1.out = w.out ∧
      output searchPath [] isRecursive ignoreCase pid d = [] := by
  have key : ∀ w : World, (search searchPath [] isRecursive ignoreCase pid d w).1.out = w.out := by
    intro w
    obtain ⟨l, hl, hall⟩ := search_sound searchPath [] isRecursive ignoreCase pid d w
    have hnil : l = [] := by
      apply List.eq_nil_iff_forall_not_mem.2
      intro x hx
      obtain ⟨_, _, _, _, ⟨n, hn, _⟩, _⟩ := hall x hx
      simp at hn
    rw [hl, hnil, List.append_nil]
  exact ⟨key w, key _⟩

/-- C1: without the recursive flag every record that `search` emits carries the
path of an entry that the searched directory itself lists, and (names being
valid file names) no record carries the path of an entry located inside one of
those entries. -/
theorem search_flat_direct (searchPath : Str) (fileNames : List Str) (ignoreCase : Bool)
    (pid : Nat) (d : Node) (hv : ∀ qx ∈ walk searchPath d.children, validName qx.2.name) :
    (∀ x ∈ output searchPath fileNames false ignoreCase pid d,
      ∃ e ∈ d.children, x.path = pathAppend searchPath e.name) ∧
    (∀ x ∈ output searchPath fileNames false ignoreCase pid d,
      ∀ e ∈ d.children, ∀ qx ∈ inside (pathAppend searchPath e.name) e, x.path ≠ qx.1) := by
  have direct : ∀ x ∈ output searchPath fileNames false ignoreCase pid d,
      ∃ e ∈ d.children, x.path = pathAppend searchPath e.name := by
    intro x hx
    obtain ⟨qx, _, h1, _, _, _, h5⟩ := output_sound _ _ _ _ _ _ x hx
    obtain ⟨e, he, hq⟩ := h5 rfl
    exact ⟨e, he, by rw [h1, hq]⟩
  refine ⟨direct, ?_⟩
  intro x hx e he qx hq
  obtain ⟨e1, he1, hp⟩ := direct x hx
  have hin : ∀ e ∈ d.children, ∀ qx ∈ inside (pathAppend searchPath e.name) e,
      qx ∈ walk searchPath d.children := fun e he qx hq =>
    (walk_mem_iff _ _ _).2 ⟨e, he, Or.inr hq⟩
  have hdir : ∀ e ∈ d.children, validName e.name := fun e he =>
    hv _ ((walk_mem_iff _ _ _).2 ⟨e, he, Or.inl rfl⟩)
  rw [hp]
  exact direct_ne_inside searchPath e1 e (hdir e1 he1) (hdir e he)
    (fun qx hq => hv qx (hin e he qx hq)) qx hq

/-- C1 on the tree `root/{a.txt, sub/{a.txt, b.txt}}` with target `a.txt`: the
only record is the one for `root/a.txt`, and it is the path of an entry of
`root`. -/
theorem search_flat_direct_witness :
    output "root".toList ["a.txt".toList] false false 1 exampleTree =
        [{ pid := 1, fileName := "a.txt".toList, path := "root/a.txt".toList }] ∧
      (∀ x ∈ output "root".toList ["a.txt".toList] false false 1 exampleTree,
        ∃ e ∈ exampleTree.children, x.path = pathAppend "root".toList e.name) :=
  ⟨by decide,
    (search_flat_direct "root".toList ["a.txt".toList] false 1 exampleTree (by decide)).1⟩

/-- Without the recursive flag every entry of the directory is compared, as long
as the base names can be computed. -/
theorem searchLoop_flat_complete (sp : Str) (fn : List Str) (ic : Bool) (pid : Nat)
    (es : List Node) (w : World)
    (hshort : ∀ e ∈ es, (pathAppend sp e.name).length < 2 ^ 31)
    (e : Node) (he : e ∈ es) (x : Record)
    (hx : x ∈ report pid (specBaseName (pathAppend sp e.name)) (pathAppend sp e.name) fn ic) :
    x ∈ (searchLoop sp fn false ic pid es w).1.out := by
  induction es generalizing w with
  | nil => simp at he
  | cons p rest ih =>
    rw [searchLoop_cons_flat]
    have hp := parseFileName_eq _ (hshort p (List.mem_cons_self _ _))
    rw [hp]
    rcases List.mem_cons.1 he with h | h
    · subst h
      apply searchLoop_out_mono
      exact List.mem_append_right _ hx
    · exact ih _ (fun e he => hshort e (List.mem_cons_of_mem _ he)) h

/-- C9: an entry of the searched directory that is a listable directory and
whose name matches a target name gets a record of its own exactly when the
search is not recursive. -/
theorem directory_entry_reported_iff (searchPath : Str) (fileNames : List Str)
    (isRecursive ignoreCase : Bool) (pid : Nat) (rootName : Str) (entries : List Node)
    (name : Str) (children : List Node)
    (hmem : Node.dir name true children ∈ entries)
    (hvalid : ∀ qx ∈ walk searchPath entries, validName qx.2.name)
    (hnodup : (entries.map Node.name).Nodup)
    (hshort : ∀ e ∈ entries, (pathAppend searchPath e.name).length < 2 ^ 31)
    (hmatch : ∃ n ∈ fileNames, compareStrings name n ignoreCase = true) :
    (∃ x ∈ output searchPath fileNames isRecursive ignoreCase pid (.dir rootName true entries),
      x.path = pathAppend searchPath name) ↔ isRecursive = false := by
  have hname : validName name :=
    hvalid _ ((walk_mem_iff _ _ _).2 ⟨_, hmem, Or.inl rfl⟩)
  constructor
  · rintro ⟨x, hx, hpath⟩
    cases isRecursive with
    | false => rfl
    | true =>
      exfalso
      obtain ⟨qx, hq, h1, _, _, h4, _⟩ := output_sound _ _ _ _ _ _ x hx
      have hnd := h4 rfl
      obtain ⟨e, he, hcase⟩ := (walk_mem_iff _ _ _).1 hq
      have hen : validName e.name := hvalid _ ((walk_mem_iff _ _ _).2 ⟨e, he, Or.inl rfl⟩)
      rcases hcase with hdirect | hdeep
      · have hpe : pathAppend searchPath name = pathAppend searchPath e.name := by
          rw [← hpath, h1, hdirect]
        rw [pathAppend_valid _ hname, pathAppend_valid _ hen] at hpe
        have hne : (Node.dir name true children).name = e.name := List.append_cancel_left hpe
        have hee : Node.dir name true children = e :=
          List.inj_on_of_nodup_map hnodup hmem he hne
        rw [hdirect, ← hee] at hnd
        simp [Node.isReadableDir] at hnd
      · have hv2 : ∀ qx ∈ inside (pathAppend searchPath e.name) e, validName qx.2.name :=
          fun qx hq => hvalid qx ((walk_mem_iff _ _ _).2 ⟨e, he, Or.inr hq⟩)
        apply direct_ne_inside searchPath (.dir name true children) e hname hen hv2 qx hdeep
        rw [← h1, hpath]
        rfl
  · intro hr
    subst hr
    obtain ⟨n, hn, hc⟩ := hmatch
    have hlen : (pathAppend searchPath name).length < 2 ^ 31 := hshort _ hmem
    have hbase : specBaseName (pathAppend searchPath name) = name := by
      have h1 := parseFileName_eq _ hlen
      rw [parseFileName_pathAppend searchPath hname hlen] at h1
      exact (Option.some.inj h1).symm
    refine ⟨{ pid := pid, fileName := name, path := pathAppend searchPath name }, ?_, rfl⟩
    unfold output
    rw [search_readable]
    apply searchLoop_flat_complete searchPath fileNames ignoreCase pid entries _ hshort _ hmem
    show _ ∈ report pid (specBaseName (pathAppend searchPath name)) (pathAppend searchPath name)
      fileNames ignoreCase
    rw [hbase]
    exact List.mem_map.2 ⟨n, List.mem_filter.2 ⟨hn, hc⟩, rfl⟩

/-- C9 on the tree `root/{a.txt, sub/{a.txt, b.txt}}` with target `sub`: the
directory `root/sub` gets a record in a flat search and none in a recursive
one. -/
theorem directory_entry_reported_iff_witness :
    ((∃ x ∈ output "root".toList ["sub".toList] false false 1 exampleTree,
        x.path = pathAppend "root".toList "sub".toList) ↔ false = false) ∧
    ((∃ x ∈ output "root".toList ["sub".toList] true false 1 exampleTree,
        x.path = pathAppend "root".toList "sub".toList) ↔ true = false) :=
  ⟨directory_entry_reported_iff "root".toList ["sub".toList] false false 1 "root".toList
      exampleTree.children "sub".toList [.file "a.txt".toList, .file "b.txt".toList]
      (List.Mem.tail _ (List.Mem.head _)) (by decide) (by decide) (by decide) (by decide),
    directory_entry_reported_iff "root".toList ["sub".toList] true false 1 "root".toList
      exampleTree.children "sub".toList [.file "a.txt".toList, .file "b.txt".toList]
      (List.Mem.tail _ (List.Mem.head _)) (by decide) (by decide) (by decide) (by decide)⟩

/-! ## Paths identify entries -/

theorem append_sep_cancel {l1 l2 r1 r2 : Str} (h : l1 ++ '/' :: r1 = l2 ++ '/' :: r2)
    (h1 : '/' ∉ l1) (h2 : '/' ∉ l2) : l1 = l2 := by
  induction l1 generalizing l2 with
  | nil =>
    cases l2 with
    | nil => rfl
    | cons y ys =>
      simp only [List.nil_append, List.cons_append, List.cons.injEq] at h
      exact absurd (by simp [← h.1]) h2
  | cons x xs ih =>
    cases l2 with
    | nil =>
      simp only [List.nil_append, List.cons_append, List.cons.injEq] at h
      exact absurd (by simp [h.1]) h1
    | cons y ys =>
      simp only [List.cons_append, List.cons.injEq] at h
      have hx : '/' ∉ xs := fun hm => h1 (List.mem_cons_of_mem _ hm)
      have hy : '/' ∉ ys := fun hm => h2 (List.mem_cons_of_mem _ hm)
      rw [h.1, ih h.2 hx hy]

theorem sizeOf_children_lt (e : Node) (es : List Node) (he : e ∈ es) :
    sizeOf e.children < sizeOf es := by
  have h1 : sizeOf e < sizeOf es := List.sizeOf_lt_of_mem he
  have h2 : sizeOf e.children ≤ sizeOf e := by
    cases e with
    | file n => simp [Node.children]
    | statError n => simp [Node.children]
    | dir n b c =>
      simp only [Node.children, Node.dir.sizeOf_spec]
      omega
  omega

/-- Under valid names that are distinct within each directory, two entries of
the tree with the same path are the same entry. -/
theorem walk_path_unique_aux (k : Nat) :
    ∀ (dir : Str) (es : List Node), sizeOf es ≤ k →
      (∀ qx ∈ walk dir es, validName qx.2.name) →
      (es.map Node.name).Nodup →
      (∀ qx ∈ walk dir es, (qx.2.children.map Node.name).Nodup) →
      ∀ a ∈ walk dir es, ∀ b ∈ walk dir es, a.1 = b.1 → a = b := by
  induction k with
  | zero =>
    intro dir es hk
    cases es with
    | nil => intro _ _ _ a ha; simp [walk] at ha
    | cons p rest =>
      simp only [List.cons.sizeOf_spec] at hk
      omega
  | succ k ih =>
    intro dir es hk hv hn hn2 a ha b hb hab
    obtain ⟨e1, he1, hca⟩ := (walk_mem_iff _ _ _).1 ha
    obtain ⟨e2, he2, hcb⟩ := (walk_mem_iff _ _ _).1 hb
    have hval : ∀ e ∈ es, validName e.name := fun e he =>
      hv _ ((walk_mem_iff _ _ _).2 ⟨e, he, Or.inl rfl⟩)
    have hin : ∀ e ∈ es, ∀ qx ∈ inside (pathAppend dir e.name) e, qx ∈ walk dir es :=
      fun e he qx hq => (walk_mem_iff _ _ _).2 ⟨e, he, Or.inr hq⟩
    rcases hca with hda | hia
    · rcases hcb with hdb | hib
      · have hp : pathAppend dir e1.name = pathAppend dir e2.name := by
          rw [hda, hdb] at hab
          exact hab
        rw [pathAppend_valid _ (hval e1 he1), pathAppend_valid _ (hval e2 he2)] at hp
        have hee : e1 = e2 := List.inj_on_of_nodup_map hn he1 he2 (List.append_cancel_left hp)
        rw [hda, hdb, hee]
      · exfalso
        apply direct_ne_inside dir e1 e2 (hval e1 he1) (hval e2 he2)
          (fun qx hq => hv qx (hin e2 he2 qx hq)) b hib
        rw [← hab, hda]
    · rcases hcb with hdb | hib
      · exfalso
        apply direct_ne_inside dir e2 e1 (hval e2 he2) (hval e1 he1)
          (fun qx hq => hv qx (hin e1 he1 qx hq)) a hia
        rw [hab, hdb]
      · obtain ⟨s1, hs1⟩ := inside_slash dir e1 (hval e1 he1)
          (fun qx hq => hv qx (hin e1 he1 qx hq)) a hia
        obtain ⟨s2, hs2⟩ := inside_slash dir e2 (hval e2 he2)
          (fun qx hq => hv qx (hin e2 he2 qx hq)) b hib
        have hname : e1.name = e2.name := by
          rw [hs1, hs2] at hab
          exact append_sep_cancel (List.append_cancel_left hab) (hval e1 he1).2 (hval e2 he2).2
        have hee : e1 = e2 := List.inj_on_of_nodup_map hn he1 he2 hname
        subst hee
        rw [inside_children] at hia hib
        have hsize : sizeOf e1.children ≤ k := by
          have := sizeOf_children_lt e1 es he1
          omega
        have hsub : ∀ qx ∈ walk (pathAppend dir e1.name) e1.children, qx ∈ walk dir es :=
          fun qx hq => hin e1 he1 qx (by rw [inside_children]; exact hq)
        exact ih (pathAppend dir e1.name) e1.children hsize
          (fun qx hq => hv qx (hsub qx hq))
          (hn2 _ ((walk_mem_iff _ _ _).2 ⟨e1, he1, Or.inl rfl⟩))
          (fun qx hq => hn2 qx (hsub qx hq)) a hia b hib hab

theorem walk_path_unique (dir : Str) (es : List Node)
    (hv : ∀ qx ∈ walk dir es, validName qx.2.name)
    (hn : (es.map Node.name).Nodup)
    (hn2 : ∀ qx ∈ walk dir es, (qx.2.children.map Node.name).Nodup)
    (a b : Str × Node) (ha : a ∈ walk dir es) (hb : b ∈ walk dir es) (hab : a.1 = b.1) :
    a = b :=
  walk_path_unique_aux (sizeOf es) dir es (Nat.le_refl _) hv hn hn2 a ha b hb hab

/-- In a recursive search of a tree whose directories can all be listed, no
record carries the path of a directory entry. -/
theorem output_no_directory (sp : Str) (fn : List Str) (ic : Bool) (pid : Nat) (rootName : Str)
    (es : List Node)
    (hread : ∀ qx ∈ walk sp es, qx.2.isDir = true → qx.2.isReadableDir = true)
    (hv : ∀ qx ∈ walk sp es, validName qx.2.name)
    (hn : (es.map Node.name).Nodup)
    (hn2 : ∀ qx ∈ walk sp es, (qx.2.children.map Node.name).Nodup)
    (qx : Str × Node) (hq : qx ∈ walk sp es) (hdir : qx.2.isDir = true) :
    ¬ ∃ x ∈ output sp fn true ic pid (.dir rootName true es), x.path = qx.1 := by
  rintro ⟨x, hx, hpath⟩
  obtain ⟨qy, hy, h1, _, _, h4, _⟩ := output_sound _ _ _ _ _ _ x hx
  have heq : qy = qx := walk_path_unique sp es hv hn hn2 qy qx hy hq (by rw [← h1, hpath])
  have hnr := h4 rfl
  rw [heq, hread qx hq hdir] at hnr
  cases hnr

/-- Completeness of the recursive traversal: when every directory can be listed
and every base name can be computed, every entry that is not a directory and
whose base name matches a target name has a record. -/
theorem searchLoop_complete (sp : Str) (fn : List Str) (ic : Bool) (pid : Nat)
    (es : List Node) (w : World)
    (hread : ∀ qx ∈ walk sp es, qx.2.isDir = true → qx.2.isReadableDir = true)
    (hshort : ∀ qx ∈ walk sp es, qx.1.length < 2 ^ 31)
    (qx : Str × Node) (hq : qx ∈ walk sp es) (hfile : qx.2.isDir = false)
    (hmatch : ∃ n ∈ fn, compareStrings (specBaseName qx.1) n ic = true) :
    ∃ x ∈ (searchLoop sp fn true ic pid es w).1.out,
      x.path = qx.1 ∧ x.fileName = specBaseName qx.1 := by
  match es with
  | [] => simp [walk] at hq
  | .file n :: rest =>
    rw [searchLoop_cons_file]
    have hp := parseFileName_eq _ (hshort _ (walk_mem_head sp (.file n) rest))
    simp only [Node.name] at hp
    rw [hp]
    rw [walk_cons] at hq
    rcases List.mem_cons.1 hq with h | h
    · obtain ⟨m, hm, hc⟩ := hmatch
      subst h
      refine ⟨{ pid := pid, fileName := specBaseName (pathAppend sp n),
                path := pathAppend sp n }, ?_, rfl, rfl⟩
      apply searchLoop_out_mono
      exact List.mem_append_right _ (List.mem_map.2 ⟨m, List.mem_filter.2 ⟨hm, hc⟩, rfl⟩)
    · rcases List.mem_append.1 h with h | h
      · simp [inside] at h
      · exact searchLoop_complete sp fn ic pid rest _
          (fun qx hq => hread qx (walk_mem_rest sp _ rest qx hq))
          (fun qx hq => hshort qx (walk_mem_rest sp _ rest qx hq)) qx h hfile hmatch
  | .statError n :: rest =>
    rw [searchLoop_cons_statError]
    have hp := parseFileName_eq _ (hshort _ (walk_mem_head sp (.statError n) rest))
    simp only [Node.name] at hp
    rw [hp]
    rw [walk_cons] at hq
    rcases List.mem_cons.1 hq with h | h
    · obtain ⟨m, hm, hc⟩ := hmatch
      subst h
      refine ⟨{ pid := pid, fileName := specBaseName (pathAppend sp n),
                path := pathAppend sp n }, ?_, rfl, rfl⟩
      apply searchLoop_out_mono
      exact List.mem_append_right _ (List.mem_map.2 ⟨m, List.mem_filter.2 ⟨hm, hc⟩, rfl⟩)
    · rcases List.mem_append.1 h with h | h
      · simp [inside] at h
      · exact searchLoop_complete sp fn ic pid rest _
          (fun qx hq => hread qx (walk_mem_rest sp _ rest qx hq))
          (fun qx hq => hshort qx (walk_mem_rest sp _ rest qx hq)) qx h hfile hmatch
  | .dir n true c :: rest =>
    rw [searchLoop_cons_dir_eq]
    rw [walk_cons] at hq
    rcases List.mem_cons.1 hq with h | h
    · subst h
      simp [Node.isDir] at hfile
    · rcases List.mem_append.1 h with h | h
      · rw [inside_dir] at h
        obtain ⟨x, hx, hx2⟩ := searchLoop_complete (pathAppend sp n) fn ic w.nextPid c
          { w with nextPid := w.nextPid + 1 }
          (fun qx hq => hread qx (walk_mem_child sp n true c rest qx hq))
          (fun qx hq => hshort qx (walk_mem_child sp n true c rest qx hq)) qx h hfile hmatch
        exact ⟨x, searchLoop_out_mono _ _ _ _ _ _ _ x hx, hx2⟩
      · exact searchLoop_complete sp fn ic pid rest _
          (fun qx hq => hread qx (walk_mem_rest sp _ rest qx hq))
          (fun qx hq => hshort qx (walk_mem_rest sp _ rest qx hq)) qx h hfile hmatch
  | .dir n false c :: rest =>
    have := hread _ (walk_mem_head sp (.dir n false c) rest) rfl
    simp [Node.isReadableDir] at this

/-- C2, refuted as stated: in `root/{sub/{a.txt}}` every directory can be
listed and the entry `root/sub` has the base name `sub`, yet the recursive
search for `sub` emits nothing. -/
theorem recursive_skips_directories :
    (∀ qx ∈ walk "root".toList nestedTree.children,
        qx.2.isDir = true → qx.2.isReadableDir = true) ∧
      ("root/sub".toList, Node.dir "sub".toList true [.file "a.txt".toList]) ∈
        walk "root".toList nestedTree.children ∧
      parseFileName "root/sub".toList = some "sub".toList ∧
      output "root".toList ["sub".toList] true false 1 nestedTree = [] ∧
      ¬ ∃ x ∈ output "root".toList ["sub".toList] true false 1 nestedTree,
          x.path = "root/sub".toList :=
  ⟨by decide, List.Mem.head _, by decide, by decide, by decide⟩

/-- C2, amended: when every directory of the tree can be listed and every path
is shorter than `2 ^ 31` characters, the recursive case-sensitive search emits a
record for every entry, at any depth, that is not a directory and whose base
name is a target name; and (entry names being valid and distinct within each
directory) it emits no record that carries the path of a directory entry. -/
theorem recursive_finds_files (searchPath : Str) (fileNames : List Str) (pid : Nat)
    (rootName : Str) (entries : List Node)
    (hread : ∀ qx ∈ walk searchPath entries, qx.2.isDir = true → qx.2.isReadableDir = true)
    (hshort : ∀ qx ∈ walk searchPath entries, qx.1.length < 2 ^ 31) :
    (∀ qx ∈ walk searchPath entries, qx.2.isDir = false →
      ∀ n ∈ fileNames, parseFileName qx.1 = some n →
        ∃ x ∈ output searchPath fileNames true false pid (.dir rootName true entries),
          x.path = qx.1 ∧ x.fileName = n) ∧
    ((∀ qx ∈ walk searchPath entries, validName qx.2.name) →
      (entries.map Node.name).Nodup →
      (∀ qx ∈ walk searchPath entries, (qx.2.children.map Node.name).Nodup) →
      ∀ qx ∈ walk searchPath entries, qx.2.isDir = true →
        ¬ ∃ x ∈ output searchPath fileNames true false pid (.dir rootName true entries),
            x.path = qx.1) := by
  constructor
  · intro qx hq hfile n hn hbase
    have hb : specBaseName qx.1 = n := by
      have h1 := parseFileName_eq _ (hshort qx hq)
      rw [hbase] at h1
      exact (Option.some.inj h1).symm
    have hmatch : ∃ m ∈ fileNames, compareStrings (specBaseName qx.1) m false = true :=
      ⟨n, hn, by rw [hb]; exact compareStrings_refl n false⟩
    obtain ⟨x, hx, hp, hf⟩ := searchLoop_complete searchPath fileNames false pid entries
      { nextPid := pid + 1, out := [] } hread hshort qx hq hfile hmatch
    exact ⟨x, hx, hp, by rw [hf, hb]⟩
  · intro hv hn hn2 qx hq hdir
    exact output_no_directory searchPath fileNames false pid rootName entries hread hv hn hn2
      qx hq hdir

/-- C2 on the tree `root/{a.txt, sub/{a.txt, b.txt}}` with target `a.txt`: the
recursive search emits the two records for `root/a.txt` and `root/sub/a.txt`;
the amended statement yields the record of `root/sub/a.txt`, and with target
`sub` it yields that no record carries the path of the directory `root/sub`. -/
theorem recursive_finds_files_witness :
    output "root".toList ["a.txt".toList] true false 1 exampleTree =
        [{ pid := 1, fileName := "a.txt".toList, path := "root/a.txt".toList },
         { pid := 2, fileName := "a.txt".toList, path := "root/sub/a.txt".toList }] ∧
      (∃ x ∈ output "root".toList ["a.txt".toList] true false 1 exampleTree,
        x.path = "root/sub/a.txt".toList ∧ x.fileName = "a.txt".toList) ∧
      (¬ ∃ x ∈ output "root".toList ["sub".toList] true false 1 exampleTree,
        x.path = "root/sub".toList) :=
  ⟨by decide,
    (recursive_finds_files "root".toList ["a.txt".toList] 1 "root".toList exampleTree.children
      (by decide) (by decide)).1 ("root/sub/a.txt".toList, .file "a.txt".toList)
      (List.Mem.tail _ (List.Mem.tail _ (List.Mem.head _))) rfl "a.txt".toList (by decide)
      (by decide),
    (recursive_finds_files "root".toList ["sub".toList] 1 "root".toList exampleTree.children
      (by decide) (by decide)).2 (by decide) (by decide) (by decide)
      ("root/sub".toList, .dir "sub".toList true [.file "a.txt".toList, .file "b.txt".toList])
      (List.Mem.tail _ (List.Mem.head _)) rfl⟩

/-! ## Directories that cannot be listed -/

/-- C4, the code at `root/{D/, b.txt}` with `D` not listable, recursive search:
the process forked for `D` (identifier 2) catches the error and then carries on
with the loop of its parent, so it reports `D` itself when `D` is a target and
reports `b.txt` a second time; with `D` listable and empty there is one record
for `b.txt` and none for `D`. -/
theorem locked_directory_duplicates :
    output "root".toList ["b.txt".toList] true false 1 lockedTree =
        [{ pid := 2, fileName := "b.txt".toList, path := "root/b.txt".toList },
         { pid := 1, fileName := "b.txt".toList, path := "root/b.txt".toList }] ∧
      output "root".toList ["b.txt".toList] true false 1 unlockedTree =
        [{ pid := 1, fileName := "b.txt".toList, path := "root/b.txt".toList }] ∧
      output "root".toList ["D".toList] true false 1 lockedTree =
        [{ pid := 2, fileName := "D".toList, path := "root/D".toList }] ∧
      output "root".toList ["D".toList] true false 1 unlockedTree = [] := by
  refine ⟨by decide, by decide, by decide, by decide⟩

/-- C5, the code at a root directory that cannot be listed: `search` writes
nothing and throws `filesystem_error`, whatever the targets and the flags, and
`main`, which has no handler, ends in `std::terminate` instead of returning 0;
so does the run `myfind -R root/ a.txt` started in `/home/u/work` (lexical
model of `fs::canonical`) when the root cannot be listed. -/
theorem locked_root_terminates (searchPath : Str) (fileNames : List Str)
    (isRecursive ignoreCase : Bool) (pid : Nat) (name : Str) (entries : List Node) (w : World)
    (flag₁ flag₂ : Bool) (argv : List Str) :
    search searchPath fileNames isRecursive ignoreCase pid (.dir name false entries) w =
        (w, some .filesystem_error) ∧
      main (fun _ => some searchPath) (fun _ => .dir name false entries) flag₁ flag₂ argv pid w =
        (w, .terminated .filesystem_error) ∧
      main (fun q => some (lexCanonical "/home/u/work".toList q)) (fun _ => lockedRoot)
          false false ["myfind".toList, "-R".toList, "root/".toList, "a.txt".toList] 1
          { nextPid := 2, out := [] } =
        ({ nextPid := 2, out := [] }, .terminated .filesystem_error) := by
  refine ⟨rfl, ?_, by decide⟩
  simp only [main, getSearchPath, search_unreadable]

/-! ## The command line -/

theorem getFileNames_foldl (acc : List Str) (arguments : List Str) :
    arguments.foldl
      (fun fileNames arg =>
        if arg = ['-', 'R'] ∨ arg = ['-', 'i'] ∨ arg = ['-', 'R', 'i'] ∨ arg = ['-', 'i', 'R'] ∨
            containsChar arg '/' = true then fileNames
        else fileNames ++ [arg])
      acc =
    acc ++ arguments.filter (fun arg =>
      !decide (arg = ['-', 'R'] ∨ arg = ['-', 'i'] ∨ arg = ['-', 'R', 'i'] ∨
        arg = ['-', 'i', 'R'] ∨ containsChar arg '/' = true)) := by
  induction arguments generalizing acc with
  | nil => simp
  | cons a as ih =>
    rw [List.foldl_cons, ih]
    by_cases h : a = ['-', 'R'] ∨ a = ['-', 'i'] ∨ a = ['-', 'R', 'i'] ∨ a = ['-', 'i', 'R'] ∨
        containsChar a '/' = true
    · rw [if_pos h]
      simp only [List.filter_cons, h, decide_True, Bool.not_true, Bool.false_eq_true, if_false]
    · rw [if_neg h]
      simp only [List.filter_cons, h, decide_False, Bool.not_false, if_true, List.append_assoc,
        List.singleton_append]

/-- What `getFileNames` computes: the arguments, in order and with multiplicity,
that are none of the four literals `-R`, `-i`, `-Ri`, `-iR` and contain no `/`. -/
theorem getFileNames_eq_filter (arguments : List Str) :
    getFileNames arguments =
      arguments.filter (fun arg =>
        !decide (arg = ['-', 'R'] ∨ arg = ['-', 'i'] ∨ arg = ['-', 'R', 'i'] ∨
          arg = ['-', 'i', 'R'] ∨ containsChar arg '/' = true)) := by
  unfold getFileNames
  rw [getFileNames_foldl]
  simp

/-- C8, the code at the arguments `-RR a.txt ./`: the option scan of
`setOptions` consumes `-RR` as flags (it switches the recursive flag on), and
`getFileNames` nevertheless returns `-RR` as a target name; likewise for the
unknown option `-x`. -/
theorem getFileNames_keeps_option_arguments :
    getFileNames ["-RR".toList, "a.txt".toList, "./".toList] = ["-RR".toList, "a.txt".toList] ∧
      isOptionArgument "-RR".toList = true ∧
      setOptions ["-RR".toList, "a.txt".toList, "./".toList] false false = (false, true) ∧
      getFileNames ["-x".toList, "a.txt".toList, "./".toList] = ["-x".toList, "a.txt".toList] ∧
      isOptionArgument "-x".toList = true := by
  refine ⟨by decide, by decide, by decide, by decide, by decide⟩

/-! ## The search path -/

theorem splitSlash_ne_nil (s : Str) : splitSlash s ≠ [] := by
  cases s with
  | nil => simp [splitSlash]
  | cons c cs =>
    rw [splitSlash]
    split
    · simp
    · split <;> simp

theorem splitSlash_append (a b : Str) :
    splitSlash (a ++ '/' :: b) = splitSlash a ++ splitSlash b := by
  induction a with
  | nil => simp [splitSlash]
  | cons c cs ih =>
    rw [List.cons_append, splitSlash, ih]
    by_cases hc : c = '/'
    · simp [hc, splitSlash]
    · rw [if_neg hc]
      conv_rhs => rw [splitSlash, if_neg hc]
      cases h : splitSlash cs with
      | nil => exact absurd h (splitSlash_ne_nil cs)
      | cons x xs => simp

theorem resolveFrom_append (stack : List Str) (a b : Str) :
    resolveFrom stack (a ++ '/' :: b) = resolveFrom (resolveFrom stack a) b := by
  unfold resolveFrom
  rw [splitSlash_append, List.foldl_append]

theorem resolveFrom_nil (stack : List Str) : resolveFrom stack [] = stack := by
  simp [resolveFrom, splitSlash, resolveStep]

theorem resolveFrom_dotdot (stack : List Str) : resolveFrom stack ['.', '.'] = stack.dropLast := by
  have h : splitSlash ['.', '.'] = [['.', '.']] := by decide
  unfold resolveFrom
  rw [h]
  simp [resolveStep]

/-- Walking `../p` from a directory is walking `p` from its parent. -/
theorem resolveFrom_parent (stack : List Str) (p : Str) :
    resolveFrom stack ('.' :: '.' :: '/' :: p) = resolveFrom stack.dropLast p := by
  have h : ('.' :: '.' :: '/' :: p) = ['.', '.'] ++ '/' :: p := rfl
  rw [h, resolveFrom_append, resolveFrom_dotdot]

theorem pathAppend_absolute (lhs rhs : Str) (h : rhs.head? = some '/') :
    pathAppend lhs rhs = rhs := by
  unfold pathAppend
  rw [if_pos h]

theorem pathAppend_dotdot (p : Str) (h : p.head? ≠ some '/') :
    pathAppend ['.', '.'] p = '.' :: '.' :: '/' :: p := by
  unfold pathAppend
  rw [if_neg h, if_pos ⟨by simp, by simp⟩]
  rfl

/-- In the lexical model, the canonical form of `../p` is `p` resolved from the
parent of the working directory. -/
theorem lexCanonical_dotdot (cwd p : Str) :
    lexCanonical cwd ('.' :: '.' :: '/' :: p) =
      render (resolveFrom (resolveFrom [] cwd).dropLast p) := by
  unfold lexCanonical
  congr 1
  unfold pathAppend
  rw [if_neg (by simp)]
  by_cases hd : cwd = []
  · subst hd
    simp only [ne_eq, not_true_eq_false, false_and, if_false, List.nil_append]
    rw [resolveFrom_parent, resolveFrom_nil]
  · by_cases hl : cwd.getLast? = some '/'
    · have hne : ¬ (cwd ≠ [] ∧ cwd.getLast? ≠ some '/') := fun hc => hc.2 hl
      rw [if_neg hne]
      have hd2 : cwd = cwd.dropLast ++ ['/'] :=
        (List.dropLast_append_getLast? '/' (by simpa using hl)).symm
      have e1 : cwd ++ '.' :: '.' :: '/' :: p = cwd.dropLast ++ '/' :: ('.' :: '.' :: '/' :: p) := by
        conv_lhs => rw [hd2]
        simp
      have e2 : resolveFrom [] cwd = resolveFrom [] cwd.dropLast := by
        conv_lhs => rw [hd2]
        have : cwd.dropLast ++ ['/'] = cwd.dropLast ++ '/' :: [] := rfl
        rw [this, resolveFrom_append, resolveFrom_nil]
      rw [e1, resolveFrom_append, resolveFrom_parent, e2]
    · rw [if_pos ⟨hd, hl⟩, resolveFrom_append, resolveFrom_parent]

/-- C7, refuted as stated: with working directory `/home/u/proj/build` (lexical
model of `fs::canonical`) and the relative path argument `src/`, `getSearchPath`
returns `/home/u/proj/src`, whereas the canonical form of the working directory
joined with `src/` is `/home/u/proj/build/src`. -/
theorem getSearchPath_not_against_cwd :
    getSearchPath (fun q => some (lexCanonical "/home/u/proj/build".toList q))
        ["a.txt".toList, "src/".toList] = some "/home/u/proj/src".toList ∧
      lexCanonical "/home/u/proj/build".toList
        (pathAppend "/home/u/proj/build".toList "src/".toList) = "/home/u/proj/build/src".toList ∧
      getSearchPath (fun q => some (lexCanonical "/home/u/proj/build".toList q))
        ["a.txt".toList, "src/".toList] ≠
        some (lexCanonical "/home/u/proj/build".toList
          (pathAppend "/home/u/proj/build".toList "src/".toList)) := by
  refine ⟨by decide, by decide, by decide⟩

/-- C7, amended: for an absolute path argument `getSearchPath` returns the
canonical form of that path; for a relative path argument `p` it returns the
canonical form of `../p`, which in the lexical model is `p` resolved from the
parent of the working directory. -/
theorem getSearchPath_resolves_against_parent (canonical : Str → Option Str)
    (arguments : List Str) :
    ((pathArgument arguments).head? = some '/' →
      getSearchPath canonical arguments = canonical (pathArgument arguments)) ∧
    ((pathArgument arguments).head? ≠ some '/' →
      getSearchPath canonical arguments =
        canonical ('.' :: '.' :: '/' :: pathArgument arguments)) ∧
    (∀ cwd : Str, (pathArgument arguments).head? ≠ some '/' →
      getSearchPath (fun q => some (lexCanonical cwd q)) arguments =
        some (render (resolveFrom (resolveFrom [] cwd).dropLast (pathArgument arguments)))) := by
  refine ⟨?_, ?_, ?_⟩
  · intro h
    simp only [getSearchPath, pathAppend_absolute _ _ h]
  · intro h
    simp only [getSearchPath, pathAppend_dotdot _ h]
  · intro cwd h
    simp only [getSearchPath, pathAppend_dotdot _ h, lexCanonical_dotdot]

/-- C7 at the arguments `a.txt src/` with working directory `/home/u/proj/build`:
the relative argument is resolved from `/home/u/proj`; and at the absolute
argument `/etc/` the result is the canonical form of `/etc/`. -/
theorem getSearchPath_resolves_against_parent_witness :
    getSearchPath (fun q => some (lexCanonical "/home/u/proj/build".toList q))
        ["a.txt".toList, "src/".toList] =
      some (render (resolveFrom (resolveFrom [] "/home/u/proj/build".toList).dropLast
        (pathArgument ["a.txt".toList, "src/".toList]))) ∧
    getSearchPath (fun q => some (lexCanonical "/home/u/proj/build".toList q))
        ["a.txt".toList, "/etc/".toList] =
      some (lexCanonical "/home/u/proj/build".toList
        (pathArgument ["a.txt".toList, "/etc/".toList])) :=
  ⟨(getSearchPath_resolves_against_parent (fun _ => none) ["a.txt".toList, "src/".toList]).2.2
      "/home/u/proj/build".toList (by decide),
    (getSearchPath_resolves_against_parent
      (fun q => some (lexCanonical "/home/u/proj/build".toList q))
      ["a.txt".toList, "/etc/".toList]).1 (by decide)⟩

end MyFind
